import Mathlib

/-!
Verification of `scripts/fix-any-types.py`, a line-oriented regex rewriter
that narrows TypeScript `any` annotations to `unknown`.

The development shallowly embeds the script: a small regular-expression
engine covering exactly the constructs the script's patterns use
(literal characters, positive character classes, `\w`, `\s`, `.`,
greedy and lazy `*`, `+` via sequencing, lookahead `(?=...)`, the word
boundary `\b`, and a single capture group with `\1` in the replacement),
Python `re.search` / `re.sub` semantics over that engine (leftmost match,
backtracking priority, non-overlapping global substitution), and then the
`TypeScriptAnyReplacer` class as pure functions over explicit state.
Strings are lists of characters; character semantics are ASCII, which is
what the script's patterns and realistic inputs use.
-/

namespace FixAnyTypes

abbrev Str := List Char

def sl (s : String) : Str := s.toList

/-- Python `\w` on ASCII text: letters, digits, underscore. -/
def isWordChar (c : Char) : Bool :=
  ('a' ≤ c && c ≤ 'z') || ('A' ≤ c && c ≤ 'Z') || ('0' ≤ c && c ≤ '9') || c == '_'

/-- Python `\s` on ASCII text. -/
def isSpaceChar (c : Char) : Bool :=
  c == ' ' || c == '\t' || c == '\n' || c == '\r' || c == '\x0b' || c == '\x0c'

/-- Regular-expression abstract syntax, covering the constructs appearing in
the script's patterns. `star true` is greedy `*`, `star false` is lazy `*?`.
`grp` is capture group 1 (the only group any script pattern has). -/
inductive Regex where
  | eps
  | ch (c : Char)
  | cls (cs : List Char)
  | wordc
  | spacec
  | dot
  | seq (r1 r2 : Regex)
  | star (greedy : Bool) (r : Regex)
  | look (r : Regex)
  | wb
  | grp (r : Regex)
  | eol
deriving Repr, DecidableEq

/-- Group-1 capture merging for sequential composition: a later capture
overrides an earlier one. -/
def mergeG (a b : Option Str) : Option Str :=
  match b with
  | some v => some v
  | none => a

/-- The character immediately before the current position after consuming
`m`, used for `\b`. -/
def lastCh (prev : Option Char) (m : Str) : Option Char :=
  match m.getLast? with
  | some c => some c
  | none => prev

/-- Backtracking matcher. `mtch fuel r prev s` returns all ways `r` can
match a prefix of `s`, as `(matched, rest, group1)` triples, in Python
backtracking priority order (the head is the match `re` would choose at
this position). `prev` is the character just before `s` in the full
subject, for `\b`. `fuel` bounds recursion depth; every pattern in this
development is given ample fuel. -/
def mtch : Nat → Regex → Option Char → Str → List (Str × Str × Option Str)
  | 0, _, _, _ => []
  | _ + 1, .eps, _, s => [([], s, none)]
  | _ + 1, .ch c, _, s =>
    match s with
    | [] => []
    | x :: rest => if x == c then [([x], rest, none)] else []
  | _ + 1, .cls cs, _, s =>
    match s with
    | [] => []
    | x :: rest => if cs.contains x then [([x], rest, none)] else []
  | _ + 1, .wordc, _, s =>
    match s with
    | [] => []
    | x :: rest => if isWordChar x then [([x], rest, none)] else []
  | _ + 1, .spacec, _, s =>
    match s with
    | [] => []
    | x :: rest => if isSpaceChar x then [([x], rest, none)] else []
  | _ + 1, .dot, _, s =>
    match s with
    | [] => []
    | x :: rest => if x == '\n' then [] else [([x], rest, none)]
  | f + 1, .seq r1 r2, prev, s =>
    (mtch f r1 prev s).flatMap fun t1 =>
      (mtch f r2 (lastCh prev t1.1) t1.2.1).map fun t2 =>
        (t1.1 ++ t2.1, t2.2.1, mergeG t1.2.2 t2.2.2)
  | f + 1, .star g r, prev, s =>
    let body := (mtch f r prev s).filter fun t => !t.1.isEmpty
    let viaBody := body.flatMap fun t1 =>
      (mtch f (.star g r) (lastCh prev t1.1) t1.2.1).map fun t2 =>
        (t1.1 ++ t2.1, t2.2.1, mergeG t1.2.2 t2.2.2)
    if g then viaBody ++ [([], s, none)] else ([], s, none) :: viaBody
  | f + 1, .look r, prev, s => if (mtch f r prev s).isEmpty then [] else [([], s, none)]
  | _ + 1, .wb, prev, s =>
    let before := match prev with
      | some c => isWordChar c
      | none => false
    let after := match s with
      | c :: _ => isWordChar c
      | [] => false
    if before != after then [([], s, none)] else []
  | f + 1, .grp r, prev, s =>
    (mtch f r prev s).map fun t => (t.1, t.2.1, some t.1)
  | _ + 1, .eol, _, s =>
    if s == [] || s == ['\n'] then [([], s, none)] else []

/-- Fuel sufficient for any of the script's (small, fixed) patterns on a
subject of the given length: star iterations consume at least one
character each and structural depth is bounded by the pattern size. -/
def fuelFor (s : Str) : Nat := s.length + 200

/-- Does `r` match starting exactly at the current position? -/
def matchHere (r : Regex) (prev : Option Char) (s : Str) : Bool :=
  !(mtch (fuelFor s) r prev s).isEmpty

def searchAux (r : Regex) : Option Char → Str → Bool
  | prev, [] => matchHere r prev []
  | prev, c :: rest => matchHere r prev (c :: rest) || searchAux r (some c) rest

/-- Python `re.search(pattern, s) is not None`. -/
def reSearch (r : Regex) (s : Str) : Bool := searchAux r none s

/-- The replacement argument of `re.sub` as the script uses it: a literal
string, the callable `lambda m: m.group(0).replace('any', 'unknown')`, or
the template `r'catch (\1: unknown)'`. -/
inductive Repl where
  | lit (s : Str)
  | anyToUnknown
  | catchTemplate
deriving Repr, DecidableEq

/-- Python `str.replace('any', 'unknown')`: left-to-right, non-overlapping. -/
def replaceAnyUnknown : Str → Str
  | [] => []
  | 'a' :: 'n' :: 'y' :: rest => sl "unknown" ++ replaceAnyUnknown rest
  | c :: rest => c :: replaceAnyUnknown rest

def applyRepl (rep : Repl) (m : Str) (g1 : Option Str) : Str :=
  match rep with
  | .lit s => s
  | .anyToUnknown => replaceAnyUnknown m
  | .catchTemplate => sl "catch (" ++ g1.getD [] ++ sl ": unknown)"

def subAux : Nat → Regex → Repl → Option Char → Str → Str
  | 0, _, _, _, s => s
  | f + 1, r, rep, prev, s =>
    match (mtch (fuelFor s) r prev s).head? with
    | none =>
      match s with
      | [] => []
      | c :: rest => c :: subAux f r rep (some c) rest
    | some (m, restAfter, g1) =>
      match m with
      | [] =>
        match s with
        | [] => applyRepl rep m g1
        | c :: rest => applyRepl rep m g1 ++ c :: subAux f r rep (some c) rest
      | _ :: _ => applyRepl rep m g1 ++ subAux f r rep (lastCh prev m) restAfter

/-- Python `re.sub(pattern, repl, s)`: scan left to right, replace each
non-overlapping match, copy unmatched characters. -/
def pySub (r : Regex) (rep : Repl) (s : Str) : Str :=
  subAux (s.length + 1) r rep none s

/-- Literal regex from a list of characters. -/
def rlit : Str → Regex
  | [] => .eps
  | [c] => .ch c
  | c :: rest => .seq (.ch c) (rlit rest)

def rseq : List Regex → Regex
  | [] => .eps
  | [r] => r
  | r :: rest => .seq r (rseq rest)

/-- A pattern as handed to `re.sub`/`re.search`: either it compiles to a
regex, or compiling it raises `re.error` (the script's final general
pattern `as any(?=\s*[;,.\)]))` has an unbalanced parenthesis). `raw`
keeps the original pattern text, which is what the warning names. -/
inductive Pat where
  | ok (r : Regex)
  | malformed (raw : Str)
deriving Repr, DecidableEq

abbrev Rul := Pat × Repl

/-- The raw text of the script's malformed `as any` pattern. -/
def asAnyRaw : Str := sl "as any(?=\\s*[;,.\\)]))"

/-- Scanner deciding whether the parentheses of a regex pattern text are
balanced, ignoring escaped characters and character-class contents. -/
def parenScan : Str → Nat → Bool → Bool
  | [], depth, _ => depth == 0
  | '\\' :: rest, depth, inCls =>
    match rest with
    | [] => depth == 0
    | _ :: rest2 => parenScan rest2 depth inCls
  | '[' :: rest, depth, false => parenScan rest depth true
  | ']' :: rest, depth, true => parenScan rest depth false
  | '(' :: rest, depth, false => parenScan rest (depth + 1) false
  | ')' :: rest, depth, false =>
    match depth with
    | 0 => false
    | d + 1 => parenScan rest d false
  | _ :: rest, depth, inCls => parenScan rest depth inCls

def parenBalanced (s : Str) : Bool := parenScan s 0 false

/-- The list `self.replacements` from `__init__`, in source order. Each entry is the
compiled form of the source pattern next to it in a comment; the last one
does not compile. -/
def defaultReplacements : List Rul := [
  -- (r'\(value: any\)', '(value: unknown)')
  (.ok (rlit (sl "(value: any)")), .lit (sl "(value: unknown)")),
  -- (r'=> any\b', '=> unknown')
  (.ok (.seq (rlit (sl "=> any")) .wb), .lit (sl "=> unknown")),
  -- (r': any\[\]', ': unknown[]')
  (.ok (rlit (sl ": any[]")), .lit (sl ": unknown[]")),
  -- (r': any\s*=', ': unknown =')
  (.ok (rseq [rlit (sl ": any"), .star true .spacec, .ch '=']), .lit (sl ": unknown =")),
  -- (r'Record<string, any>', 'Record<string, unknown>')
  (.ok (rlit (sl "Record<string, any>")), .lit (sl "Record<string, unknown>")),
  -- (r'Record<\w+, any>', lambda m: m.group(0).replace('any', 'unknown'))
  (.ok (rseq [rlit (sl "Record<"), .wordc, .star true .wordc, rlit (sl ", any>")]), .anyToUnknown),
  -- (r'<T extends any>', '<T>')
  (.ok (rlit (sl "<T extends any>")), .lit (sl "<T>")),
  -- (r'<T = any>', '<T = unknown>')
  (.ok (rlit (sl "<T = any>")), .lit (sl "<T = unknown>")),
  -- (r'Array<any>', 'Array<unknown>')
  (.ok (rlit (sl "Array<any>")), .lit (sl "Array<unknown>")),
  -- (r'any\[\]', 'unknown[]')
  (.ok (rlit (sl "any[]")), .lit (sl "unknown[]")),
  -- (r'\(.*?: any\) => any', lambda m: m.group(0).replace('any', 'unknown'))
  (.ok (rseq [.ch '(', .star false .dot, rlit (sl ": any) => any")]), .anyToUnknown),
  -- (r'const \w+: any\b', lambda m: m.group(0).replace('any', 'unknown'))
  (.ok (rseq [rlit (sl "const "), .wordc, .star true .wordc, rlit (sl ": any"), .wb]), .anyToUnknown),
  -- (r'let \w+: any\b', lambda m: m.group(0).replace('any', 'unknown'))
  (.ok (rseq [rlit (sl "let "), .wordc, .star true .wordc, rlit (sl ": any"), .wb]), .anyToUnknown),
  -- (r'var \w+: any\b', lambda m: m.group(0).replace('any', 'unknown'))
  (.ok (rseq [rlit (sl "var "), .wordc, .star true .wordc, rlit (sl ": any"), .wb]), .anyToUnknown),
  -- (r':\s*any(?=\s*[;,}])', ': unknown')
  (.ok (rseq [.ch ':', .star true .spacec, rlit (sl "any"),
    .look (.seq (.star true .spacec) (.cls [';', ',', '\x7d']))]), .lit (sl ": unknown")),
  -- (r'as any(?=\s*[;,.\)]))', 'as unknown') : unbalanced parenthesis, re.error
  (.malformed asAnyRaw, .lit (sl "as unknown"))]

/-- The dict `self.context_replacements` from `__init__`: from context label
to an ordered rule list, modelled as an association list in source order. -/
def defaultContextReplacements : List (Str × List Rul) := [
  (sl "validator", [
    -- (r'\(v: any\)', '(v: unknown)')
    (.ok (rlit (sl "(v: any)")), .lit (sl "(v: unknown)")),
    -- (r'\(value: any\)', '(value: unknown)')
    (.ok (rlit (sl "(value: any)")), .lit (sl "(value: unknown)"))]),
  (sl "error_handler", [
    -- (r'catch \((\w+): any\)', r'catch (\1: unknown)')
    (.ok (rseq [rlit (sl "catch ("), .grp (.seq .wordc (.star true .wordc)), rlit (sl ": any)")]),
      .catchTemplate),
    -- (r'error: any', 'error: unknown')
    (.ok (rlit (sl "error: any")), .lit (sl "error: unknown"))]),
  (sl "api_response", [
    -- (r'response: any', 'response: unknown')
    (.ok (rlit (sl "response: any")), .lit (sl "response: unknown")),
    -- (r'data: any', 'data: unknown')
    (.ok (rlit (sl "data: any")), .lit (sl "data: unknown"))]),
  (sl "test_file", [
    -- (r'expect\(.*?: any\)', lambda m: m.group(0).replace('any', 'unknown'))
    (.ok (rseq [rlit (sl "expect("), .star false .dot, rlit (sl ": any)")]), .anyToUnknown)])]

/-- The list `self.exclude_patterns` from `__init__` (all five compile). -/
def defaultExcludePatterns : List Regex := [
  -- r'\.d\.ts$'
  .seq (rlit (sl ".d.ts")) .eol,
  -- r'node_modules/'
  rlit (sl "node_modules/"),
  -- r'\.git/'
  rlit (sl ".git/"),
  -- r'dist/'
  rlit (sl "dist/"),
  -- r'build/'
  rlit (sl "build/")]

/-- The list `self.preserve_patterns` from `__init__`. -/
def defaultPreservePatterns : List Regex := [
  -- r'// @ts-ignore.*any'
  rseq [rlit (sl "// @ts-ignore"), .star true .dot, rlit (sl "any")],
  -- r'// eslint-disable.*any'
  rseq [rlit (sl "// eslint-disable"), .star true .dot, rlit (sl "any")],
  -- r'JSON\.parse\(.*\): any'
  rseq [rlit (sl "JSON.parse("), .star true .dot, rlit (sl "): any")],
  -- r'window\.\w+.*: any'
  rseq [rlit (sl "window."), .wordc, .star true .wordc, .star true .dot, rlit (sl ": any")]]

/-- The mutable state of a `TypeScriptAnyReplacer` instance that the
processing functions read (the counters are threaded explicitly through
the run functions below). `exclude_patterns` may be extended by
`--exclude` in `main`. -/
structure Replacer where
  dry_run : Bool
  replacements : List Rul
  context_replacements : List (Str × List Rul)
  exclude_patterns : List Regex
  preserve_patterns : List Regex

/-- Constructor `TypeScriptAnyReplacer(dry_run)`. -/
def mkReplacer (dry : Bool) : Replacer :=
  ⟨dry, defaultReplacements, defaultContextReplacements,
    defaultExcludePatterns, defaultPreservePatterns⟩

/-- Method `should_exclude_file`. -/
def should_exclude_file (R : Replacer) (file_path : Str) : Bool :=
  R.exclude_patterns.any fun p => reSearch p file_path

/-- Method `should_preserve_line`. -/
def should_preserve_line (R : Replacer) (line : Str) : Bool :=
  R.preserve_patterns.any fun p => reSearch p line

/-- Case-insensitive helper: `needle in hay` for Python strings. -/
def startsWithL : Str → Str → Bool
  | _, [] => true
  | [], _ :: _ => false
  | h :: hs, n :: ns => h == n && startsWithL hs ns

def hasSub : Str → Str → Bool
  | [], needle => startsWithL [] needle
  | h :: rest, needle => startsWithL (h :: rest) needle || hasSub rest needle

/-- Method `get_file_context`: first-match priority over case-insensitive
substring tests on the path. -/
def get_file_context (file_path : Str) : Str :=
  let p := file_path.map Char.toLower
  if hasSub p (sl "test") || hasSub p (sl "spec") then sl "test_file"
  else if hasSub p (sl "validator") || hasSub p (sl "validation") then sl "validator"
  else if hasSub p (sl "api") && (hasSub p (sl "client") || hasSub p (sl "response")) then
    sl "api_response"
  else if hasSub p (sl "error") || hasSub p (sl "exception") then sl "error_handler"
  else sl "general"

/-- Result of `process_line`: the transformed line, the change count, and
the patterns named by the `Warning: Regex error with pattern ...` messages
the general loop printed, in print order. -/
structure LineResult where
  line : Str
  changes : Nat
  warnings : List Str
deriving Repr, DecidableEq

/-- The context-rule loop of `process_line` (lines 129-137). It has no
`try`, so a malformed pattern makes `re.sub` raise `re.error`, which
propagates; the error value carries the offending pattern text. -/
def applyContextRules : List Rul → Str → Except Str (Str × Nat)
  | [], line => .ok (line, 0)
  | (p, rep) :: rules, line =>
    match p with
    | .malformed raw => .error raw
    | .ok r =>
      let new_line := pySub r rep line
      if new_line = line then applyContextRules rules line
      else
        match applyContextRules rules new_line with
        | .error e => .error e
        | .ok (l, c) => .ok (l, c + 1)

/-- The general-rule loop of `process_line` (lines 140-151). The `try`
around `re.sub` catches `re.error`: a malformed pattern only prints a
warning and the loop continues with the next rule. -/
def applyGeneralRules : List Rul → Str → Str × Nat × List Str
  | [], line => (line, 0, [])
  | (p, rep) :: rules, line =>
    match p with
    | .malformed raw =>
      let rest := applyGeneralRules rules line
      (rest.1, rest.2.1, raw :: rest.2.2)
    | .ok r =>
      let new_line := pySub r rep line
      if new_line = line then applyGeneralRules rules line
      else
        let rest := applyGeneralRules rules new_line
        (rest.1, rest.2.1 + 1, rest.2.2)

/-- Dict membership test and lookup for `self.context_replacements`. -/
def lookupCtx : List (Str × List Rul) → Str → Option (List Rul)
  | [], _ => none
  | (k, v) :: rest, key => if k = key then some v else lookupCtx rest key

/-- Method `process_line(line, file_context)`: preserve check, then the
context-specific rules (if the context is a key of the dict), then the
general rules. An exception escaping the context loop aborts processing. -/
def process_line (R : Replacer) (line : Str) (file_context : Str) : Except Str LineResult :=
  if should_preserve_line R line then .ok ⟨line, 0, []⟩
  else
    match lookupCtx R.context_replacements file_context with
    | none =>
      let g := applyGeneralRules R.replacements line
      .ok ⟨g.1, g.2.1, g.2.2⟩
    | some rules =>
      match applyContextRules rules line with
      | .error raw => .error raw
      | .ok (l1, c1) =>
        let g := applyGeneralRules R.replacements l1
        .ok ⟨g.1, c1 + g.2.1, g.2.2⟩

/-- Sequential before/after trace of the context loop on a line: one
`(input, output)` pair per `re.sub` call, in rule order (stopping if a
rule raises). Used to state the per-rule-application counting claim. -/
def contextTrace : List Rul → Str → List (Str × Str)
  | [], _ => []
  | (p, rep) :: rules, line =>
    match p with
    | .malformed _ => []
    | .ok r =>
      let nl := pySub r rep line
      (line, nl) :: contextTrace rules nl

/-- Boolean and propositional equality agree on `List Char` by lawfulness
of its `BEq` instance. -/
theorem beq_eq_on_str (a b : Str) : (a == b) = decide (a = b) := by
  by_cases h : a = b
  · subst h
    simp
  · rw [decide_eq_false h, beq_eq_false_iff_ne]
    exact h

theorem bne_true_of_ne (a b : Str) (h : ¬a = b) : (a != b) = true := by
  simp only [bne, beq_eq_on_str, decide_eq_false h]
  rfl

theorem bne_false_of_eq (a b : Str) (h : a = b) : (a != b) = false := by
  subst h
  simp

/-- Sequential before/after trace of the general loop on a line: one
`(input, output)` pair per successful `re.sub` call, in rule order;
malformed rules contribute no pair. -/
def generalTrace : List Rul → Str → List (Str × Str)
  | [], _ => []
  | (p, rep) :: rules, line =>
    match p with
    | .malformed _ => generalTrace rules line
    | .ok r =>
      let nl := pySub r rep line
      (line, nl) :: generalTrace rules nl

/-- The number of trace steps whose substitution changed the text. -/
def countChanged (tr : List (Str × Str)) : Nat :=
  tr.countP fun q => q.1 != q.2

/-- On-disk state relevant to the script: a map from path to file content.
Content is stored as `readlines` delivers it (a list of lines, each
keeping its terminator); `writelines` concatenates them back, so this
representation is lossless for the script's read-modify-write cycle. -/
abbrev FileSys := List (Str × List Str)

def fsRead : FileSys → Str → Option (List Str)
  | [], _ => none
  | (q, content) :: rest, p => if q = p then some content else fsRead rest p

def fsWrite : FileSys → Str → List Str → FileSys
  | [], p, c => [(p, c)]
  | (q, old) :: rest, p, c => if q = p then (p, c) :: rest else (q, old) :: fsWrite rest p c

/-- The per-line loop of `process_file`: transformed lines in order and the
cumulative change count. Propagates an exception raised by a line. -/
def processLines (R : Replacer) (ctx : Str) : List Str → Except Str (List Str × Nat)
  | [] => .ok ([], 0)
  | l :: ls =>
    match process_line R l ctx with
    | .error e => .error e
    | .ok r =>
      match processLines R ctx ls with
      | .error e => .error e
      | .ok (ms, c) => .ok (r.line :: ms, r.changes + c)

/-- Result of `process_file`: the file system afterwards, the returned
boolean (file reported as modified), and the contribution the call adds to
`self.changes_made`. -/
structure FileResult where
  fs : FileSys
  modified : Bool
  changes : Nat
deriving Repr, DecidableEq

/-- Method `process_file(file_path)`. An unreadable file (here: absent path) is
skipped with a warning, mirroring the `except (UnicodeDecodeError,
IOError)` branch. The write happens only when not in dry-run mode and the
file's change count is positive. -/
def process_file (R : Replacer) (fs : FileSys) (file_path : Str) : Except Str FileResult :=
  if should_exclude_file R file_path then .ok ⟨fs, false, 0⟩
  else
    match fsRead fs file_path with
    | none => .ok ⟨fs, false, 0⟩
    | some lines =>
      match processLines R (get_file_context file_path) lines with
      | .error e => .error e
      | .ok (modified_lines, file_changes) =>
        if file_changes > 0 then
          if R.dry_run then .ok ⟨fs, true, file_changes⟩
          else .ok ⟨fsWrite fs file_path modified_lines, true, file_changes⟩
        else .ok ⟨fs, false, 0⟩

/-- A directory tree as `os.walk` observes it: named subdirectories and
file names at each node. -/
inductive FsTree where
  | node (dirs : List (Str × FsTree)) (files : List Str)

/-- Python `os.path.join` for the non-empty relative names `os.walk` yields. -/
def joinPath (a b : Str) : Str := a ++ '/' :: b

/-- Python `file.endswith(('.ts', '.tsx'))`. -/
def endsWithL (suf s : Str) : Bool := startsWithL s.reverse suf.reverse

def isTsCandidate (name : Str) : Bool :=
  (endsWithL (sl ".ts") name || endsWithL (sl ".tsx") name) && !endsWithL (sl ".d.ts") name

/-- Does the joined path of a subdirectory match some exclude pattern
(the pruning test on line 198)? -/
def dirExcluded (R : Replacer) (p : Str) : Bool :=
  R.exclude_patterns.any fun pat => reSearch pat p

mutual

/-- The `os.walk` loop of `find_typescript_files`, before the final
`sorted`: collect qualifying files of the current directory, prune
subdirectories whose joined path matches an exclude pattern, recurse into
the survivors. -/
def walkCollect (R : Replacer) (root : Str) : FsTree → List Str
  | .node dirs files =>
    (files.filterMap fun f =>
      let fp := joinPath root f
      if isTsCandidate f && !should_exclude_file R fp then some fp else none)
    ++ walkDirs R root dirs

def walkDirs (R : Replacer) (root : Str) : List (Str × FsTree) → List Str
  | [] => []
  | (name, sub) :: rest =>
    (if dirExcluded R (joinPath root name) then []
     else walkCollect R (joinPath root name) sub)
    ++ walkDirs R root rest

end

/-- Comparison of Python strings, by code points. -/
def strLt : Str → Str → Bool
  | [], [] => false
  | [], _ :: _ => true
  | _ :: _, [] => false
  | a :: as', b :: bs => decide (a.toNat < b.toNat) || (a == b && strLt as' bs)

def strLe (a b : Str) : Bool := !strLt b a

def insertStr (x : Str) : List Str → List Str
  | [] => [x]
  | y :: ys => if strLe x y then x :: y :: ys else y :: insertStr x ys

/-- Python `sorted` on a list of strings (order only; Python's sort is
stable, which is immaterial here). -/
def pysorted : List Str → List Str
  | [] => []
  | x :: xs => insertStr x (pysorted xs)

def isSortedStr : List Str → Bool
  | [] => true
  | [_] => true
  | a :: b :: rest => strLe a b && isSortedStr (b :: rest)

/-- Method `find_typescript_files(directory)`: walk, then `sorted`. -/
def find_typescript_files (R : Replacer) (root : Str) (t : FsTree) : List Str :=
  pysorted (walkCollect R root t)

/-- The world `run` operates in: file contents (also the `os.path.isfile`
oracle) and a table of directory trees for `os.walk`. A root that is
neither a file nor a known directory walks as empty, like `os.walk` on a
nonexistent path. -/
structure World where
  fs : FileSys
  dirs : List (Str × FsTree)

def lookupDir : List (Str × FsTree) → Str → Option FsTree
  | [], _ => none
  | (k, v) :: rest, key => if k == key then some v else lookupDir rest key

def isfile (w : World) (p : Str) : Bool := (fsRead w.fs p).isSome

/-- The discovery loop of `run` (lines 210-216): direct file arguments are
appended as-is, directories are expanded via `find_typescript_files`, in
argument order. -/
def gatherFiles (R : Replacer) (w : World) : List Str → List Str
  | [] => []
  | root :: rest =>
    (if isfile w root then [root]
     else match lookupDir w.dirs root with
       | some t => find_typescript_files R root t
       | none => [])
    ++ gatherFiles R w rest

/-- Accumulated results of a run: final disk state, the candidate list in
processing order, and the three summary counters. -/
structure RunOutput where
  fs : FileSys
  all_files : List Str
  files_processed : Nat
  files_modified : Nat
  changes_made : Nat
deriving Repr, DecidableEq

def runFiles (R : Replacer) : FileSys → List Str → Except Str (FileSys × Nat × Nat × Nat)
  | fs, [] => .ok (fs, 0, 0, 0)
  | fs, p :: ps =>
    match process_file R fs p with
    | .error e => .error e
    | .ok r =>
      match runFiles R r.fs ps with
      | .error e => .error e
      | .ok (fs2, np, nm, nc) =>
        .ok (fs2, np + 1, (if r.modified then nm + 1 else nm), r.changes + nc)

/-- Method `run(directories)`: discovery, then sequential processing of the
candidates in list order, accumulating the summary counters. -/
def run (R : Replacer) (w : World) (roots : List Str) : Except Str RunOutput :=
  match runFiles R w.fs (gatherFiles R w roots) with
  | .error e => .error e
  | .ok (fs2, np, nm, nc) => .ok ⟨fs2, gatherFiles R w roots, np, nm, nc⟩

/-- How the call `replacer.run(args.paths)` inside `main`'s `try` ends: it
returns, a `KeyboardInterrupt` arrives, or some other exception escapes. -/
inductive PyOutcome (α : Type) where
  | ok (a : α)
  | keyboardInterrupt
  | error (msg : Str)
deriving Repr, DecidableEq

def liftRun : Except Str RunOutput → PyOutcome RunOutput
  | .ok r => .ok r
  | .error e => .error e

/-- The `try/except` ladder of `main` (lines 252-260): the interrupt
handler prints a notice and falls through to `return 0`; the generic
handler prints the message and returns 1; otherwise `return 0`. The
process exits with this value via `exit(main())`. -/
def mainExit : PyOutcome RunOutput → Nat
  | .ok _ => 0
  | .keyboardInterrupt => 0
  | .error _ => 1

/-- What the two exception handlers of `main` print: the cancellation
notice, or `Error: <message>` (no stack trace in either case). -/
def mainHandlerOutput : PyOutcome RunOutput → List Str
  | .ok _ => []
  | .keyboardInterrupt => [sl "\nOperation cancelled by user"]
  | .error e => [sl "Error: " ++ e]

/-- Modelled from the spec's words (the refinement target for claim C8):
given a file path, return exactly one context label using first-match
priority over case-insensitive substring tests on the path — test/spec
give the test context, else validator/validation the validator context,
else api together with client-or-response the api-response context, else
error/exception the error-handler context, otherwise general. -/
def contextSpec (file_path : Str) : Str :=
  let p := file_path.map Char.toLower
  if hasSub p (sl "test") || hasSub p (sl "spec") then sl "test_file"
  else if hasSub p (sl "validator") || hasSub p (sl "validation") then sl "validator"
  else if hasSub p (sl "api") && (hasSub p (sl "client") || hasSub p (sl "response")) then
    sl "api_response"
  else if hasSub p (sl "error") || hasSub p (sl "exception") then sl "error_handler"
  else sl "general"

/-- C1: a line matching at least one preserve pattern is returned exactly
unchanged with change count 0, whatever the context, because
`process_line` returns before any rule set is consulted. -/
theorem preserve_line_unchanged (R : Replacer) (line ctx : Str)
    (h : ∃ p ∈ R.preserve_patterns, reSearch p line = true) :
    process_line R line ctx = .ok ⟨line, 0, []⟩ := by
  have hp : should_preserve_line R line = true := by
    rcases h with ⟨p, hmem, hsearch⟩
    exact List.any_eq_true.2 ⟨p, hmem, hsearch⟩
  simp [process_line, hp]

/-- Witness for C1 on the concrete line `// @ts-ignore x: any = 1`, which
matches the first preserve pattern and would otherwise be rewritten by the
general rule `: any\s*=`. -/
theorem preserve_line_unchanged_witness :
    process_line (mkReplacer false) (sl "// @ts-ignore x: any = 1") (sl "general")
      = .ok ⟨sl "// @ts-ignore x: any = 1", 0, []⟩ :=
  preserve_line_unchanged (mkReplacer false) (sl "// @ts-ignore x: any = 1") (sl "general")
    (by decide)

/-- C8: context classification is the total function the spec describes —
it agrees with the spec-side decision procedure on every path and always
lands in one of the five labels. -/
theorem get_file_context_spec :
    (∀ p, get_file_context p = contextSpec p) ∧
    (∀ p, get_file_context p ∈
      [sl "test_file", sl "validator", sl "api_response", sl "error_handler", sl "general"]) := by
  refine ⟨fun p => rfl, fun p => ?_⟩
  simp only [get_file_context]
  split
  · simp
  · split
    · simp
    · split
      · simp
      · split <;> simp

/-- C9: the completion status is 0 exactly on normal completion or a
user interrupt (the interrupt prints the cancellation notice and is not
re-raised), and 1 exactly when an exception escapes the run, in which case
only `Error: <message>` is printed; in particular every successful run —
dry or not — exits 0. -/
theorem exit_code_contract :
    (∀ o : PyOutcome RunOutput,
      (mainExit o = 0 ↔ o = .keyboardInterrupt ∨ ∃ r, o = .ok r) ∧
      (mainExit o = 1 ↔ ∃ m, o = .error m) ∧
      (∀ m, o = .error m → mainHandlerOutput o = [sl "Error: " ++ m]) ∧
      (o = .keyboardInterrupt → mainHandlerOutput o = [sl "\nOperation cancelled by user"])) ∧
    (∀ R w roots r, run R w roots = .ok r → mainExit (liftRun (run R w roots)) = 0) := by
  constructor
  · intro o
    refine ⟨?_, ?_, ?_, ?_⟩
    · cases o <;> simp [mainExit]
    · cases o <;> simp [mainExit]
    · intro m hm; subst hm; rfl
    · intro hm; subst hm; rfl
  · intro R w roots r h
    rw [h]
    rfl

/-- Witness for C9: a dry run over no roots completes normally and the
process exit status is 0. -/
theorem exit_code_contract_witness :
    mainExit (liftRun (run (mkReplacer true) ⟨[], []⟩ [])) = 0 :=
  exit_code_contract.2 (mkReplacer true) ⟨[], []⟩ [] ⟨[], [], 0, 0, 0⟩ rfl

/-- The line the rule loops have produced after a trace: the output of the
last substitution, or the input line if no rule was tried. -/
def traceEnd (line : Str) : List (Str × Str) → Str
  | [] => line
  | (_, b) :: tr => traceEnd b tr

/-- The full before/after trace of one `process_line` call: empty for a
preserved line, otherwise the context-loop trace followed by the
general-loop trace on the context loop's output. -/
def lineTrace (R : Replacer) (line ctx : Str) : List (Str × Str) :=
  if should_preserve_line R line then []
  else
    match lookupCtx R.context_replacements ctx with
    | none => generalTrace R.replacements line
    | some rules =>
      contextTrace rules line ++
        generalTrace R.replacements (traceEnd line (contextTrace rules line))

theorem applyGeneralRules_spec (rules : List Rul) (line : Str) :
    (applyGeneralRules rules line).2.1 = countChanged (generalTrace rules line) ∧
    (applyGeneralRules rules line).1 = traceEnd line (generalTrace rules line) := by
  induction rules generalizing line with
  | nil => exact ⟨rfl, rfl⟩
  | cons q rules ih =>
    obtain ⟨p, rep⟩ := q
    cases p with
    | malformed raw =>
      simpa [applyGeneralRules, generalTrace] using ih line
    | ok r =>
      by_cases h : pySub r rep line = line
      · have := ih line
        simp only [applyGeneralRules, generalTrace, countChanged, traceEnd, if_pos h, h,
          List.countP_cons, bne_false_of_eq line line rfl] at this ⊢
        simpa using this
      · have := ih (pySub r rep line)
        simp only [applyGeneralRules, generalTrace, countChanged, traceEnd, if_neg h,
          List.countP_cons, bne_true_of_ne line (pySub r rep line) (fun he => h he.symm)]
          at this ⊢
        refine ⟨?_, this.2⟩
        rw [this.1]
        simp

theorem applyContextRules_ok_spec (rules : List Rul) (line l : Str) (c : Nat)
    (h : applyContextRules rules line = .ok (l, c)) :
    c = countChanged (contextTrace rules line) ∧
    l = traceEnd line (contextTrace rules line) := by
  induction rules generalizing line l c with
  | nil =>
    simp [applyContextRules] at h
    simp [contextTrace, countChanged, traceEnd, h.1.symm, h.2.symm]
  | cons q rules ih =>
    obtain ⟨p, rep⟩ := q
    cases p with
    | malformed raw => simp [applyContextRules] at h
    | ok r =>
      by_cases hc : pySub r rep line = line
      · rw [applyContextRules] at h
        rw [if_pos hc] at h
        have := ih line l c h
        simp only [contextTrace, countChanged, traceEnd, hc, List.countP_cons,
          bne_false_of_eq line line rfl] at this ⊢
        simpa using this
      · rw [applyContextRules] at h
        rw [if_neg hc] at h
        cases hrec : applyContextRules rules (pySub r rep line) with
        | error e => rw [hrec] at h; exact absurd h (by simp)
        | ok lc =>
          rw [hrec] at h
          obtain ⟨l2, c2⟩ := lc
          simp only [Except.ok.injEq, Prod.mk.injEq] at h
          have := ih (pySub r rep line) l2 c2 hrec
          simp only [contextTrace, countChanged, traceEnd, List.countP_cons,
            bne_true_of_ne line (pySub r rep line) (fun he => hc he.symm)] at this ⊢
          refine ⟨?_, by rw [← h.1]; exact this.2⟩
          rw [← h.2, this.1]
          simp

/-- C4: the change count of `process_line` is per rule application — it
equals the number of `re.sub` calls in the line's trace whose output
differs from their input, one per rule even when a rule rewrites several
spans; on `const x: any = foo();` in the general context the output is
`const x: unknown = foo();` with exactly 1 change, and the double-span
line `f((value: any), (value: any))` also counts exactly 1. -/
theorem change_count_per_rule :
    (∀ R line ctx r, process_line R line ctx = .ok r →
      r.changes = countChanged (lineTrace R line ctx)) ∧
    process_line (mkReplacer false) (sl "const x: any = foo();") (sl "general")
      = .ok ⟨sl "const x: unknown = foo();", 1, [asAnyRaw]⟩ ∧
    process_line (mkReplacer false) (sl "f((value: any), (value: any))") (sl "general")
      = .ok ⟨sl "f((value: unknown), (value: unknown))", 1, [asAnyRaw]⟩ := by
  refine ⟨?_, by rfl, by rfl⟩
  intro R line ctx r h
  unfold process_line at h
  unfold lineTrace
  by_cases hp : should_preserve_line R line = true
  · rw [if_pos hp] at h
    rw [if_pos hp]
    cases h
    rfl
  · rw [if_neg hp] at h
    rw [if_neg hp]
    cases hl : lookupCtx R.context_replacements ctx with
    | none =>
      simp only [hl, Except.ok.injEq] at h
      simp only [hl]
      rw [← h, (applyGeneralRules_spec R.replacements line).1]
    | some rules =>
      simp only [hl] at h
      simp only [hl]
      cases hc : applyContextRules rules line with
      | error e =>
        rw [hc] at h
        exact absurd h (by simp)
      | ok lc =>
        rw [hc] at h
        obtain ⟨l1, c1⟩ := lc
        simp only [Except.ok.injEq] at h
        obtain ⟨hcount, hline⟩ := applyContextRules_ok_spec rules line l1 c1 hc
        rw [← h]
        simp only [countChanged, List.countP_append]
        rw [← countChanged, ← countChanged, ← hcount, ← hline,
          (applyGeneralRules_spec R.replacements l1).1]

/-- Witness for C4 at the spec's example line. -/
theorem change_count_per_rule_witness :
    (1 : Nat) = countChanged
      (lineTrace (mkReplacer false) (sl "const x: any = foo();") (sl "general")) :=
  change_count_per_rule.1 (mkReplacer false) (sl "const x: any = foo();") (sl "general")
    ⟨sl "const x: unknown = foo();", 1, [asAnyRaw]⟩ rfl

/-- Does this pattern compile? -/
def patOk : Pat → Bool
  | .ok _ => true
  | .malformed _ => false

theorem applyContextRules_total (rules : List Rul) (line : Str)
    (h : ∀ q ∈ rules, patOk q.1 = true) :
    ∃ l c, applyContextRules rules line = .ok (l, c) := by
  induction rules generalizing line with
  | nil => exact ⟨line, 0, rfl⟩
  | cons q rules ih =>
    obtain ⟨p, rep⟩ := q
    cases p with
    | malformed raw => simpa [patOk] using h (.malformed raw, rep) (by simp)
    | ok r =>
      have hrest : ∀ q ∈ rules, patOk q.1 = true :=
        fun q hq => h q (List.mem_cons_of_mem _ hq)
      by_cases hc : pySub r rep line = line
      · obtain ⟨l, c, hrec⟩ := ih line hrest
        refine ⟨l, c, ?_⟩
        rw [applyContextRules, if_pos hc]
        exact hrec
      · obtain ⟨l, c, hrec⟩ := ih (pySub r rep line) hrest
        refine ⟨l, c + 1, ?_⟩
        rw [applyContextRules, if_neg hc, hrec]

theorem applyContextRules_abort (pre : List Rul) (raw : Str) (rep : Repl)
    (post : List Rul) (line : Str) (h : ∀ q ∈ pre, patOk q.1 = true) :
    applyContextRules (pre ++ (Pat.malformed raw, rep) :: post) line = .error raw := by
  induction pre generalizing line with
  | nil => rfl
  | cons q pre ih =>
    obtain ⟨p, rp⟩ := q
    cases p with
    | malformed raw2 => simpa [patOk] using h (.malformed raw2, rp) (by simp)
    | ok r =>
      have hrest : ∀ q ∈ pre, patOk q.1 = true :=
        fun q hq => h q (List.mem_cons_of_mem _ hq)
      rw [List.cons_append, applyContextRules]
      by_cases hc : pySub r rp line = line
      · rw [if_pos hc]
        exact ih line hrest
      · rw [if_neg hc, ih (pySub r rp line) hrest]

theorem malformed_general_warned (rules : List Rul) (line : Str) (raw : Str) (rep : Repl)
    (h : (Pat.malformed raw, rep) ∈ rules) :
    raw ∈ (applyGeneralRules rules line).2.2 := by
  induction rules generalizing line with
  | nil => simp at h
  | cons q rules ih =>
    obtain ⟨p, rp⟩ := q
    rcases List.mem_cons.1 h with hq | hq
    · obtain ⟨h1, _⟩ := Prod.mk.injEq .. ▸ hq
      cases hq
      simp [applyGeneralRules]
    · cases p with
      | malformed raw2 => simpa [applyGeneralRules] using .inr (ih line hq)
      | ok r =>
        rw [applyGeneralRules]
        by_cases hc : pySub r rp line = line
        · rw [if_pos hc]
          exact ih line hq
        · rw [if_neg hc]
          exact ih (pySub r rp line) hq

/-- A replacer whose validator context rules contain a single rule with a
malformed pattern (the dict value is attacker-chosen only in the sense of
exercising the loop; everything else is the stock configuration). -/
def ctxMalformedReplacer : Replacer :=
  { mkReplacer false with
      context_replacements := [(sl "validator", [(.malformed asAnyRaw, .lit (sl "as unknown"))])] }

/-- Counterexample to C2: with a malformed pattern among the
context-specific rules, `process_line` does not recover — the `re.error`
escapes (the context loop has no `try`), so the line is not processed and
no remaining rule is applied, contradicting the claim that recovery also
holds for context-specific rules. -/
theorem context_malformed_aborts_cex :
    process_line ctxMalformedReplacer (sl "const v: any = 1;") (sl "validator")
      = .error asAnyRaw := rfl

/-- C2 as amended: a malformed pattern in the general rule list is
recovered — that rule alone is skipped, a warning naming the pattern is
recorded, and all remaining general rules are still applied; and whenever
the context-specific rules in play all compile, `process_line` completes
normally. But the recovery does not extend to the context-specific loop:
a malformed context rule aborts the processing of the line with the error
escaping, any preceding well-formed context rules notwithstanding. -/
theorem malformed_rule_recovery :
    (∀ rules line raw rep,
      applyGeneralRules ((Pat.malformed raw, rep) :: rules) line
        = ((applyGeneralRules rules line).1, (applyGeneralRules rules line).2.1,
            raw :: (applyGeneralRules rules line).2.2)) ∧
    (∀ R line ctx,
      (lookupCtx R.context_replacements ctx = none ∨
        ∃ rules, lookupCtx R.context_replacements ctx = some rules ∧
          ∀ q ∈ rules, patOk q.1 = true) →
      ∃ r, process_line R line ctx = .ok r) ∧
    (∀ R line ctx pre raw rep post,
      should_preserve_line R line = false →
      lookupCtx R.context_replacements ctx = some (pre ++ (Pat.malformed raw, rep) :: post) →
      (∀ q ∈ pre, patOk q.1 = true) →
      process_line R line ctx = .error raw) := by
  refine ⟨fun rules line raw rep => rfl, ?_, ?_⟩
  · intro R line ctx h
    unfold process_line
    by_cases hp : should_preserve_line R line = true
    · exact ⟨⟨line, 0, []⟩, by rw [if_pos hp]⟩
    · rw [if_neg hp]
      rcases h with hnone | ⟨rules, hsome, hok⟩
      · rw [hnone]
        exact ⟨_, rfl⟩
      · simp only [hsome]
        obtain ⟨l, c, hrec⟩ := applyContextRules_total rules line hok
        simp only [hrec]
        exact ⟨_, rfl⟩
  · intro R line ctx pre raw rep post hp hl hok
    unfold process_line
    rw [if_neg (by rw [hp]; simp)]
    simp only [hl, applyContextRules_abort pre raw rep post line hok]

/-- Witness for C2 (amended): a well-formed context rule followed by a
malformed one — the first rule's substitution succeeds and yet the line
processing aborts with the malformed pattern's error. -/
theorem malformed_rule_recovery_witness :
    process_line
      { mkReplacer false with
          context_replacements := [(sl "error_handler",
            [(.ok (rlit (sl "error: any")), .lit (sl "error: unknown")),
              (.malformed asAnyRaw, .lit (sl "as unknown"))])] }
      (sl "error: any;") (sl "error_handler") = .error asAnyRaw :=
  malformed_rule_recovery.2.2
    { mkReplacer false with
        context_replacements := [(sl "error_handler",
          [(.ok (rlit (sl "error: any")), .lit (sl "error: unknown")),
            (.malformed asAnyRaw, .lit (sl "as unknown"))])] }
    (sl "error: any;") (sl "error_handler")
    [(.ok (rlit (sl "error: any")), .lit (sl "error: unknown"))]
    asAnyRaw (.lit (sl "as unknown")) []
    rfl rfl (by decide)

/-- C5: `process_file` never touches the disk in dry-run mode; with the
write enabled and at least one change, the file's new on-disk content is
exactly the lines the line processor computed; with zero changes the file
is untouched and not reported as modified. -/
theorem process_file_frame :
    ∀ R fs path r, process_file R fs path = .ok r →
      (R.dry_run = true → r.fs = fs) ∧
      (r.changes = 0 → r.fs = fs ∧ r.modified = false) ∧
      (∀ lines out, R.dry_run = false → should_exclude_file R path = false →
        fsRead fs path = some lines →
        processLines R (get_file_context path) lines = .ok out →
        0 < out.2 →
        r.fs = fsWrite fs path out.1 ∧ r.modified = true ∧ r.changes = out.2) := by
  intro R fs path r h
  unfold process_file at h
  by_cases hex : should_exclude_file R path = true
  · rw [if_pos hex] at h
    cases h
    refine ⟨fun _ => rfl, fun _ => ⟨rfl, rfl⟩, ?_⟩
    intro lines out _ hexf
    rw [hex] at hexf
    exact absurd hexf (by simp)
  · rw [if_neg hex] at h
    cases hread : fsRead fs path with
    | none =>
      simp only [hread] at h
      cases h
      refine ⟨fun _ => rfl, fun _ => ⟨rfl, rfl⟩, ?_⟩
      intro lines out _ _ hr
      exact absurd hr (by simp)
    | some lines =>
      simp only [hread] at h
      cases hpl : processLines R (get_file_context path) lines with
      | error e =>
        simp only [hpl] at h
        exact absurd h (by simp)
      | ok mlc =>
        simp only [hpl] at h
        obtain ⟨ml, fc⟩ := mlc
        by_cases h0 : fc > 0
        · rw [if_pos h0] at h
          by_cases hd : R.dry_run = true
          · rw [if_pos hd] at h
            cases h
            refine ⟨fun _ => rfl, fun hc => by simp at hc; omega, ?_⟩
            intro lines2 out hdry _ _ _ _
            rw [hd] at hdry
            exact absurd hdry (by simp)
          · rw [if_neg hd] at h
            cases h
            refine ⟨fun hdt => absurd hdt hd, fun hc => by simp at hc; omega, ?_⟩
            intro lines2 out _ _ hread2 hpl2 _
            injection hread2 with he
            subst he
            rw [hpl] at hpl2
            cases hpl2
            exact ⟨rfl, rfl, rfl⟩
        · rw [if_neg h0] at h
          cases h
          refine ⟨fun _ => rfl, fun _ => ⟨rfl, rfl⟩, ?_⟩
          intro lines2 out _ _ hread2 hpl2 hpos
          injection hread2 with he
          subst he
          rw [hpl] at hpl2
          cases hpl2
          exact absurd hpos h0

def fsC5 : FileSys := [(sl "src/app.ts", [sl "let y: any;\n"])]

def rC5 : FileResult := ⟨[(sl "src/app.ts", [sl "let y: unknown;\n"])], true, 1⟩

/-- Witness for C5: one file whose single line the general `let` rule
rewrites; afterwards the disk holds exactly the computed line. -/
theorem process_file_frame_witness :
    rC5.fs = fsWrite fsC5 (sl "src/app.ts") [sl "let y: unknown;\n"] ∧
    rC5.modified = true ∧ rC5.changes = ([sl "let y: unknown;\n"], 1).2 :=
  (process_file_frame (mkReplacer false) fsC5 (sl "src/app.ts") rC5 rfl).2.2
    [sl "let y: any;\n"] ([sl "let y: unknown;\n"], 1) rfl rfl rfl rfl (by decide)

theorem applyGeneralRules_append_malformed (rules : List Rul) (raw : Str) (rep : Repl)
    (line : Str) :
    applyGeneralRules (rules ++ [(Pat.malformed raw, rep)]) line
      = ((applyGeneralRules rules line).1, (applyGeneralRules rules line).2.1,
          (applyGeneralRules rules line).2.2 ++ [raw]) := by
  induction rules generalizing line with
  | nil => rfl
  | cons q rules ih =>
    obtain ⟨p, rp⟩ := q
    cases p with
    | malformed raw2 => simp [applyGeneralRules, ih]
    | ok r =>
      rw [List.cons_append, applyGeneralRules, applyGeneralRules]
      by_cases hc : pySub r rp line = line
      · rw [if_pos hc, if_pos hc, ih line]
      · rw [if_neg hc, if_neg hc, ih (pySub r rp line)]

/-- Counterexample to C10's final clause: the line `return x as any[];`
contains `as any` and is rewritten by the built-in general rule
`any\[\]` into `return x as unknown[];`, which contains `as unknown` —
so it is not true that no line is ever rewritten from `as any` to
`as unknown` by a built-in rule. -/
theorem as_any_rewritten_cex :
    process_line (mkReplacer false) (sl "return x as any[];") (sl "general")
      = .ok ⟨sl "return x as unknown[];", 1, [asAnyRaw]⟩ ∧
    hasSub (sl "return x as any[];") (sl "as any") = true ∧
    hasSub (sl "return x as unknown[];") (sl "as unknown") = true :=
  ⟨rfl, rfl, rfl⟩

/-- C10 as amended: the pattern `as any(?=\s*[;,.\)]))` is indeed invalid
(unbalanced parenthesis) and sits last in the general rule list; on every
line the general loop behaves exactly as if that rule were absent except
for appending its warning; every non-preserved line that is processed to
completion carries that warning; and the rule itself never rewrites
anything — a plain `as any;` assertion is left unchanged. (A line may
still go from `as any` to `as unknown` via a different rule, as the
counterexample shows.) -/
theorem as_any_rule_skipped :
    parenBalanced asAnyRaw = false ∧
    defaultReplacements.getLast? = some (Pat.malformed asAnyRaw, Repl.lit (sl "as unknown")) ∧
    (∀ line, applyGeneralRules defaultReplacements line
      = ((applyGeneralRules defaultReplacements.dropLast line).1,
          (applyGeneralRules defaultReplacements.dropLast line).2.1,
          (applyGeneralRules defaultReplacements.dropLast line).2.2 ++ [asAnyRaw])) ∧
    (∀ b line ctx r, process_line (mkReplacer b) line ctx = .ok r →
      should_preserve_line (mkReplacer b) line = false → asAnyRaw ∈ r.warnings) ∧
    process_line (mkReplacer false) (sl "w as any;") (sl "general")
      = .ok ⟨sl "w as any;", 0, [asAnyRaw]⟩ := by
  have hsplit : defaultReplacements
      = defaultReplacements.dropLast ++ [(Pat.malformed asAnyRaw, Repl.lit (sl "as unknown"))] :=
    by rfl
  refine ⟨rfl, rfl, ?_, ?_, by rfl⟩
  · intro line
    conv_lhs => rw [hsplit]
    exact applyGeneralRules_append_malformed _ asAnyRaw _ line
  · intro b line ctx r h hp
    have hmem : (Pat.malformed asAnyRaw, Repl.lit (sl "as unknown")) ∈ defaultReplacements := by
      rw [hsplit]
      simp
    unfold process_line at h
    rw [if_neg (by rw [hp]; simp)] at h
    cases hl : lookupCtx (mkReplacer b).context_replacements ctx with
    | none =>
      simp only [hl, Except.ok.injEq] at h
      rw [← h]
      exact malformed_general_warned _ line asAnyRaw _ hmem
    | some rules =>
      simp only [hl] at h
      cases hc : applyContextRules rules line with
      | error e =>
        rw [hc] at h
        exact absurd h (by simp)
      | ok lc =>
        rw [hc] at h
        obtain ⟨l1, c1⟩ := lc
        simp only [Except.ok.injEq] at h
        rw [← h]
        exact malformed_general_warned _ l1 asAnyRaw _ hmem

/-- Witness for C10 (amended) at the unrewritten line `w as any;`. -/
theorem as_any_rule_skipped_witness :
    asAnyRaw ∈ (LineResult.mk (sl "w as any;") 0 [asAnyRaw]).warnings :=
  as_any_rule_skipped.2.2.2.1 false (sl "w as any;") (sl "general")
    ⟨sl "w as any;", 0, [asAnyRaw]⟩ rfl rfl

theorem strLt_asymm (a : Str) : ∀ b, strLt a b = true → strLt b a = false := by
  induction a with
  | nil =>
    intro b h
    cases b with
    | nil => exact absurd h (by simp [strLt])
    | cons c cs => rfl
  | cons x xs ih =>
    intro b h
    cases b with
    | nil => exact absurd h (by simp [strLt])
    | cons y ys =>
      simp only [strLt, Bool.or_eq_true, Bool.and_eq_true, decide_eq_true_eq,
        beq_iff_eq] at h
      rcases h with h1 | ⟨h2, h3⟩
      · have hlt : ¬(y.toNat < x.toNat) := by omega
        have hne : ¬(y = x) := fun he => by rw [he] at h1; omega
        simp [strLt, hlt, hne]
      · subst h2
        simp [strLt, ih ys h3]

theorem strLe_total (a b : Str) (h : strLe a b = false) : strLe b a = true := by
  unfold strLe at h ⊢
  have h1 : strLt b a = true := by
    cases hx : strLt b a
    · rw [hx] at h
      simp at h
    · rfl
  rw [strLt_asymm b a h1]
  rfl

theorem insertStr_sorted (x : Str) :
    ∀ l, isSortedStr l = true → isSortedStr (insertStr x l) = true := by
  intro l
  induction l with
  | nil => intro _; rfl
  | cons y ys ih =>
    intro hs
    rw [insertStr]
    by_cases hxy : strLe x y = true
    · rw [if_pos hxy]
      rw [isSortedStr]
      simp [hxy, hs]
    · rw [if_neg hxy]
      have hyx : strLe y x = true := by
        refine strLe_total x y ?_
        cases hb : strLe x y
        · rfl
        · exact absurd hb hxy
      cases ys with
      | nil => simp [insertStr, isSortedStr, hyx]
      | cons z zs =>
        rw [isSortedStr] at hs
        simp only [Bool.and_eq_true] at hs
        obtain ⟨hyz, hsz⟩ := hs
        have hrec := ih hsz
        rw [insertStr] at hrec ⊢
        by_cases hxz : strLe x z = true
        · rw [if_pos hxz] at hrec ⊢
          rw [isSortedStr]
          simp [hyx, hrec]
        · rw [if_neg hxz] at hrec ⊢
          rw [isSortedStr]
          simp [hyz, hrec]

theorem pysorted_sorted (l : List Str) : isSortedStr (pysorted l) = true := by
  induction l with
  | nil => rfl
  | cons x xs ih =>
    rw [pysorted]
    exact insertStr_sorted x _ ih

theorem runFiles_processed (R : Replacer) :
    ∀ files fs fs2 np nm nc, runFiles R fs files = .ok (fs2, np, nm, nc) →
      np = files.length := by
  intro files
  induction files with
  | nil =>
    intro fs fs2 np nm nc h
    simp only [runFiles, Except.ok.injEq, Prod.mk.injEq] at h
    simpa using h.2.1.symm
  | cons p ps ih =>
    intro fs fs2 np nm nc h
    rw [runFiles] at h
    cases hpf : process_file R fs p with
    | error e => rw [hpf] at h; exact absurd h (by simp)
    | ok r =>
      simp only [hpf] at h
      cases hrf : runFiles R r.fs ps with
      | error e => rw [hrf] at h; exact absurd h (by simp)
      | ok out =>
        obtain ⟨fs3, np2, nm2, nc2⟩ := out
        simp only [hrf, Except.ok.injEq, Prod.mk.injEq] at h
        have := ih r.fs fs3 np2 nm2 nc2 hrf
        rw [← h.2.1, this]
        simp

/-- The world of the C7 counterexample: two direct file roots given in
anti-alphabetical order. -/
def w7 : World := ⟨[(sl "b.ts", [sl "x\n"]), (sl "a.ts", [sl "y\n"])], []⟩

/-- Counterexample to C7: with the root list `[b.ts, a.ts]` (two direct
file arguments), the driver's full candidate list keeps the argument
order and is not sorted. -/
theorem run_candidates_unsorted_cex :
    run (mkReplacer true) w7 [sl "b.ts", sl "a.ts"]
      = .ok ⟨w7.fs, [sl "b.ts", sl "a.ts"], 2, 0, 0⟩ ∧
    isSortedStr [sl "b.ts", sl "a.ts"] = false :=
  ⟨rfl, rfl⟩

/-- C7 as amended: each directory root's contribution to the candidate
list is sorted (`find_typescript_files` ends in `sorted`), and the driver
deterministically processes exactly the discovered candidate list in list
order — but across multiple roots the list is the concatenation of the
per-root lists in argument order, which need not be globally sorted. -/
theorem per_root_sorted_processing :
    (∀ R root t, isSortedStr (find_typescript_files R root t) = true) ∧
    (∀ R w roots r, run R w roots = .ok r →
      r.all_files = gatherFiles R w roots ∧
      r.files_processed = r.all_files.length) := by
  constructor
  · intro R root t
    exact pysorted_sorted (walkCollect R root t)
  · intro R w roots r h
    unfold run at h
    cases hrf : runFiles R w.fs (gatherFiles R w roots) with
    | error e => rw [hrf] at h; exact absurd h (by simp)
    | ok out =>
      obtain ⟨fs2, np, nm, nc⟩ := out
      simp only [hrf, Except.ok.injEq] at h
      have := runFiles_processed R (gatherFiles R w roots) w.fs fs2 np nm nc hrf
      rw [← h]
      exact ⟨rfl, this⟩

/-- Witness for C7 (amended) at the counterexample world: the run
processes exactly its two candidates in list order. -/
theorem per_root_sorted_processing_witness :
    (RunOutput.mk w7.fs [sl "b.ts", sl "a.ts"] 2 0 0).all_files
        = gatherFiles (mkReplacer true) w7 [sl "b.ts", sl "a.ts"] ∧
    (RunOutput.mk w7.fs [sl "b.ts", sl "a.ts"] 2 0 0).files_processed
        = (RunOutput.mk w7.fs [sl "b.ts", sl "a.ts"] 2 0 0).all_files.length :=
  per_root_sorted_processing.2 (mkReplacer true) w7 [sl "b.ts", sl "a.ts"]
    ⟨w7.fs, [sl "b.ts", sl "a.ts"], 2, 0, 0⟩ rfl

/-- A real directory entry name: no path separator inside it. -/
def noSlash (s : Str) : Bool := s.all fun c => !(c == '/')

mutual

/-- Well-formedness of a directory tree as any real file system satisfies
it: entry names contain no `/`. -/
def treeWF : FsTree → Bool
  | .node dirs files =>
    files.all noSlash && (dirs.all fun d => noSlash d.1) && dirsWF dirs

def dirsWF : List (Str × FsTree) → Bool
  | [] => true
  | (_, sub) :: rest => treeWF sub && dirsWF rest

end

theorem noSlash_not_append (n s rest : Str) (hn : noSlash n = true)
    (h : n = s ++ '/' :: rest) : False := by
  rw [h] at hn
  simp [noSlash] at hn

theorem seg_split (d : Str) : ∀ s x y, noSlash d = true →
    s ++ '/' :: x = d ++ '/' :: y →
    (s = d ∧ x = y) ∨ ∃ s2, s = d ++ '/' :: s2 := by
  induction d with
  | nil =>
    intro s x y _ h
    cases s with
    | nil =>
      left
      simp at h
      exact ⟨rfl, h⟩
    | cons c cs =>
      right
      injection h with h1 h2
      exact ⟨cs, by rw [h1]; rfl⟩
  | cons e es ih =>
    intro s x y hd h
    simp only [noSlash, List.all_cons, Bool.and_eq_true, Bool.not_eq_true'] at hd
    cases s with
    | nil =>
      injection h with h1 h2
      exfalso
      rw [← h1] at hd
      simp at hd
    | cons c cs =>
      injection h with h1 h2
      rcases ih cs x y hd.2 h2 with ⟨hs, hxy⟩ | ⟨s2, hs⟩
      · left
        exact ⟨by rw [h1, hs], hxy⟩
      · right
        exact ⟨s2, by rw [h1, hs]; rfl⟩

mutual

theorem wc_below (R : Replacer) (root : Str) (t : FsTree) (f : Str)
    (h : f ∈ walkCollect R root t) : ∃ s, f = root ++ '/' :: s := by
  cases t with
  | node dirs files =>
    rw [walkCollect] at h
    rcases List.mem_append.1 h with h1 | h2
    · obtain ⟨name, hmem, hcond⟩ := List.mem_filterMap.1 h1
      by_cases hc : (isTsCandidate name && !should_exclude_file R (joinPath root name)) = true
      · rw [if_pos hc] at hcond
        injection hcond with he
        exact ⟨name, he.symm⟩
      · rw [if_neg hc] at hcond
        exact absurd hcond (by simp)
    · exact wd_below R root dirs f h2

theorem wd_below (R : Replacer) (root : Str) (dirs : List (Str × FsTree)) (f : Str)
    (h : f ∈ walkDirs R root dirs) : ∃ s, f = root ++ '/' :: s := by
  cases dirs with
  | nil =>
    rw [walkDirs] at h
    exact absurd h (by simp)
  | cons d rest =>
    obtain ⟨name, sub⟩ := d
    rw [walkDirs] at h
    rcases List.mem_append.1 h with h1 | h2
    · by_cases hex : dirExcluded R (joinPath root name) = true
      · rw [if_pos hex] at h1
        exact absurd h1 (by simp)
      · rw [if_neg hex] at h1
        obtain ⟨s2, hs⟩ := wc_below R (joinPath root name) sub f h1
        refine ⟨name ++ '/' :: s2, ?_⟩
        rw [hs]
        simp [joinPath]
    · exact wd_below R root rest f h2

end

mutual

theorem wc_clean (R : Replacer) (root : Str) (t : FsTree) (f a rest : Str)
    (hwf : treeWF t = true) (hf : f ∈ walkCollect R root t)
    (ha : f = a ++ '/' :: rest) (hext : ∃ s, a = root ++ '/' :: s) :
    dirExcluded R a = false := by
  cases t with
  | node dirs files =>
    rw [treeWF] at hwf
    simp only [Bool.and_eq_true] at hwf
    obtain ⟨⟨hfiles, hnames⟩, hsubs⟩ := hwf
    rw [walkCollect] at hf
    rcases List.mem_append.1 hf with h1 | h2
    · obtain ⟨name, hmem, hcond⟩ := List.mem_filterMap.1 h1
      by_cases hc : (isTsCandidate name && !should_exclude_file R (joinPath root name)) = true
      · rw [if_pos hc] at hcond
        injection hcond with he
        exfalso
        obtain ⟨s, hsa⟩ := hext
        have heq : root ++ '/' :: name = root ++ '/' :: (s ++ '/' :: rest) := by
          have hstep : joinPath root name = a ++ '/' :: rest := by rw [he]; exact ha
          rw [hsa] at hstep
          simpa [joinPath, List.append_assoc] using hstep
        have hcan := List.append_cancel_left heq
        injection hcan with _ hname
        have hns : noSlash name = true := by
          have hall := List.all_eq_true.1 hfiles
          exact hall name hmem
        exact noSlash_not_append name s rest hns hname
      · rw [if_neg hc] at hcond
        exact absurd hcond (by simp)
    · exact wd_clean R root dirs f a rest hnames hsubs h2 ha hext

theorem wd_clean (R : Replacer) (root : Str) (dirs : List (Str × FsTree)) (f a rest : Str)
    (hn : (dirs.all fun d => noSlash d.1) = true) (hwf : dirsWF dirs = true)
    (hf : f ∈ walkDirs R root dirs)
    (ha : f = a ++ '/' :: rest) (hext : ∃ s, a = root ++ '/' :: s) :
    dirExcluded R a = false := by
  cases dirs with
  | nil =>
    rw [walkDirs] at hf
    exact absurd hf (by simp)
  | cons d rest2 =>
    obtain ⟨name, sub⟩ := d
    simp only [List.all_cons, Bool.and_eq_true] at hn
    rw [dirsWF] at hwf
    simp only [Bool.and_eq_true] at hwf
    rw [walkDirs] at hf
    rcases List.mem_append.1 hf with h1 | h2
    · by_cases hex : dirExcluded R (joinPath root name) = true
      · rw [if_pos hex] at h1
        exact absurd h1 (by simp)
      · rw [if_neg hex] at h1
        have hkept : dirExcluded R (joinPath root name) = false := by
          cases hb : dirExcluded R (joinPath root name)
          · rfl
          · exact absurd hb hex
        obtain ⟨s2, hbelow⟩ := wc_below R (joinPath root name) sub f h1
        obtain ⟨s, hsa⟩ := hext
        have heq : root ++ '/' :: (s ++ '/' :: rest) = root ++ '/' :: (name ++ '/' :: s2) := by
          have h1eq : f = root ++ '/' :: (s ++ '/' :: rest) := by
            rw [ha, hsa]
            simp
          have h2eq : f = root ++ '/' :: (name ++ '/' :: s2) := by
            rw [hbelow]
            simp [joinPath]
          rw [← h1eq, ← h2eq]
        have hcan := List.append_cancel_left heq
        injection hcan with _ hseg
        rcases seg_split name s rest s2 hn.1 hseg with ⟨hs, _⟩ | ⟨s3, hs⟩
        · rw [hsa, hs]
          exact hkept
        · refine wc_clean R (joinPath root name) sub f a rest hwf.1 h1 ha ⟨s3, ?_⟩
          rw [hsa, hs]
          simp [joinPath]
    · exact wd_clean R root rest2 f a rest hn.2 hwf.2 h2 ha hext

end

theorem insertStr_mem (y x : Str) : ∀ l, y ∈ insertStr x l ↔ y = x ∨ y ∈ l := by
  intro l
  induction l with
  | nil => simp [insertStr]
  | cons z zs ih =>
    rw [insertStr]
    by_cases hxz : strLe x z = true
    · rw [if_pos hxz]
      simp
    · rw [if_neg hxz]
      simp only [List.mem_cons, ih]
      tauto

theorem pysorted_mem (y : Str) (l : List Str) : y ∈ pysorted l ↔ y ∈ l := by
  induction l with
  | nil => simp [pysorted]
  | cons x xs ih =>
    rw [pysorted, insertStr_mem]
    simp [ih]

/-- C6: pruning is complete — every file the discovery returns lies only
below directories the exclusion test rejects. Concretely: if a path `a`
strictly below the root (`a = root/…`) is a directory-level ancestor of a
returned candidate `f` (`f = a/…`), then `a` matches no exclude pattern;
contrapositively, no file beneath a directory whose joined path matches
an exclude pattern ever appears in the candidate list, whatever the
file's own extension. -/
theorem excluded_dir_files_absent :
    ∀ R root t f a rest, treeWF t = true →
      f ∈ find_typescript_files R root t →
      f = a ++ '/' :: rest →
      (∃ s, a = root ++ '/' :: s) →
      dirExcluded R a = false := by
  intro R root t f a rest hwf hf ha hext
  rw [find_typescript_files, pysorted_mem] at hf
  exact wc_clean R root t f a rest hwf hf ha hext

def t6 : FsTree :=
  .node [(sl "src", .node [] [sl "m.ts"]), (sl "dist", .node [] [sl "n.ts"])] []

/-- Witness for C6: in a tree with a `src` and a `dist` directory under
root `proj`, the candidate `proj/src/m.ts` is returned and its ancestor
directory `proj/src` indeed matches no exclude pattern. -/
theorem excluded_dir_files_absent_witness :
    dirExcluded (mkReplacer false) (sl "proj/src") = false :=
  excluded_dir_files_absent (mkReplacer false) (sl "proj") t6 (sl "proj/src/m.ts")
    (sl "proj/src") (sl "m.ts") (by decide) (by decide) (by decide)
    ⟨sl "src", by decide⟩

end FixAnyTypes
